import Mathlib

/-!
Verification of the video-art mosaic pipeline.

Shallow embedding of the tiling-and-matching core: the nearest-brightness
matcher (`matchNearestImage` from `helpers.ts`), the mean-brightness
reduction (`deriveMeanBrightness`), the tile decomposition loop and the
per-tile extraction/composite loop of `processFrame` (`worker.ts`), the
brightness catalog build (`processSwapImages` from `main.ts`), and the
resized-reference cache (`getCachedResizedImage` from `worker.ts`).

JavaScript numbers are modelled by `ℚ` (brightness values, deltas) and `ℕ`
(pixel coordinates, sizes, buffer indices); buffers are `List ℕ`; the
`Map` objects are insertion-ordered association lists, matching the
iteration-order guarantee of JavaScript `Map`.
-/

namespace VideoArt

/-- One catalog entry `(meanBrightness, imagePath)`, an element of the
serialized `imageMapArray : Array<[number, string]>`. -/
abbrev CatalogEntry : Type := ℚ × String

/-- The body of the scan loop of `matchNearestImage`, acting on the
`(nearestKey, smallestDelta)` accumulator.  `none` in the second component
models the initial `smallestDelta = Infinity` (every finite delta compares
below it), and `none` in the first models the initial `nearestKey = null`. -/
def scanStep (meanTileBrightness : ℚ) (acc : Option ℚ × Option ℚ)
    (entry : CatalogEntry) : Option ℚ × Option ℚ :=
  let delta := |entry.1 - meanTileBrightness|
  match acc.2 with
  | none => (some entry.1, some delta)
  | some smallestDelta =>
      if delta < smallestDelta then (some entry.1, some delta) else acc

/-- The linear scan of `matchNearestImage`: fold the loop body over the
catalog starting from `nearestKey = null`, `smallestDelta = Infinity`. -/
def matchScan (meanTileBrightness : ℚ) (imageMapArray : List CatalogEntry) :
    Option ℚ × Option ℚ :=
  imageMapArray.foldl (scanStep meanTileBrightness) (none, none)

/-- `matchNearestImage` from `src/helpers.ts`: scan for the brightness key
with the smallest absolute delta (strict `<`, so the first minimum wins),
return `undefined` (`none`) if the catalog was empty, otherwise `find` the
first entry whose brightness equals the winning key and return its path. -/
def matchNearestImage (meanTileBrightness : ℚ) (imageMapArray : List CatalogEntry) :
    Option String :=
  match (matchScan meanTileBrightness imageMapArray).1 with
  | none => none
  | some nearestKey =>
      (imageMapArray.find? (fun e => decide (e.1 = nearestKey))).map Prod.snd

/-- `deriveMeanBrightness` from `helpers.ts`: throws (`Except.error`) on an
empty grayscale buffer, otherwise sums the bytes left to right and divides
by the length (the redundant guard of the source's ternary is kept). -/
def deriveMeanBrightness (rawGrayscaleData : List ℕ) :
    Except String (List ℕ × ℚ) :=
  if rawGrayscaleData.length = 0 then
    .error "No grayscale data provided"
  else
    let sum : ℕ := rawGrayscaleData.foldl (fun s v => s + v) 0
    let meanBrightness : ℚ :=
      if 0 < rawGrayscaleData.length then (sum : ℚ) / (rawGrayscaleData.length : ℚ) else 0
    .ok (rawGrayscaleData, meanBrightness)

/-- The absolute brightness delta of a catalog entry against a target. -/
def entryDelta (b : ℚ) (e : CatalogEntry) : ℚ := |e.1 - b|

/-- One update step of the scan, phrased on whole entries: keep the running
best unless the new entry's delta is strictly smaller. -/
def updBest (b : ℚ) (best e : CatalogEntry) : CatalogEntry :=
  if entryDelta b e < entryDelta b best then e else best

theorem scanStep_some (b : ℚ) (best e : CatalogEntry) :
    scanStep b (some best.1, some (entryDelta b best)) e =
      (some (updBest b best e).1, some (entryDelta b (updBest b best e))) := by
  by_cases h : |e.1 - b| < |best.1 - b| <;>
    simp [scanStep, updBest, entryDelta, h]

theorem foldl_scanStep_some (b : ℚ) (l : List CatalogEntry) (best : CatalogEntry) :
    l.foldl (scanStep b) (some best.1, some (entryDelta b best)) =
      (some (l.foldl (updBest b) best).1, some (entryDelta b (l.foldl (updBest b) best))) := by
  induction l generalizing best with
  | nil => rfl
  | cons e rest ih => rw [List.foldl_cons, scanStep_some, List.foldl_cons, ih]

theorem matchScan_cons (b : ℚ) (e0 : CatalogEntry) (rest : List CatalogEntry) :
    matchScan b (e0 :: rest) =
      (some (rest.foldl (updBest b) e0).1,
        some (entryDelta b (rest.foldl (updBest b) e0))) := by
  have h0 : scanStep b (none, none) e0 = (some e0.1, some (entryDelta b e0)) := rfl
  rw [matchScan, List.foldl_cons, h0, foldl_scanStep_some]

theorem foldl_updBest_spec (b : ℚ) :
    ∀ (l : List CatalogEntry) (e0 : CatalogEntry),
      (∀ e ∈ l, entryDelta b (l.foldl (updBest b) e0) ≤ entryDelta b e) ∧
      entryDelta b (l.foldl (updBest b) e0) ≤ entryDelta b e0 ∧
      (l.foldl (updBest b) e0 = e0 ∨
        ∃ pre suf, l = pre ++ (l.foldl (updBest b) e0) :: suf ∧
          entryDelta b (l.foldl (updBest b) e0) < entryDelta b e0 ∧
          ∀ e ∈ pre, entryDelta b (l.foldl (updBest b) e0) < entryDelta b e) := by
  intro l
  induction l with
  | nil => intro e0; exact ⟨by simp, le_refl _, Or.inl rfl⟩
  | cons e rest ih =>
      intro e0
      simp only [List.foldl_cons]
      by_cases h : entryDelta b e < entryDelta b e0
      · rw [show (updBest b e0 e) = e from if_pos h]
        obtain ⟨hmin, hhead, hdisj⟩ := ih e
        refine ⟨?_, le_of_lt (lt_of_le_of_lt hhead h), ?_⟩
        · intro e' he'
          rcases List.mem_cons.mp he' with rfl | he'
          · exact hhead
          · exact hmin e' he'
        · right
          rcases hdisj with heq | ⟨pre, suf, hsplit, hlt, hpre⟩
          · exact ⟨[], rest, by simp [heq], lt_of_le_of_lt (heq ▸ hhead) h, by simp⟩
          · refine ⟨e :: pre, suf, by rw [List.cons_append, ← hsplit], lt_of_le_of_lt hhead h, ?_⟩
            intro e' he'
            rcases List.mem_cons.mp he' with rfl | he'
            · exact hlt
            · exact hpre e' he'
      · rw [show (updBest b e0 e) = e0 from if_neg h]
        obtain ⟨hmin, hhead, hdisj⟩ := ih e0
        have hee : entryDelta b e0 ≤ entryDelta b e := le_of_not_lt h
        refine ⟨?_, hhead, ?_⟩
        · intro e' he'
          rcases List.mem_cons.mp he' with rfl | he'
          · exact le_trans hhead hee
          · exact hmin e' he'
        · rcases hdisj with heq | ⟨pre, suf, hsplit, hlt, hpre⟩
          · exact Or.inl heq
          · refine Or.inr ⟨e :: pre, suf, by rw [List.cons_append, ← hsplit], hlt, ?_⟩
            intro e' he'
            rcases List.mem_cons.mp he' with rfl | he'
            · exact lt_of_lt_of_le hlt hee
            · exact hpre e' he'

theorem find?_append_first {α : Type} (p : α → Bool) (B : α) (suf : List α) :
    ∀ pre : List α, (∀ e ∈ pre, p e = false) → p B = true →
      List.find? p (pre ++ B :: suf) = some B := by
  intro pre
  induction pre with
  | nil => intro _ hB; simp [List.find?, hB]
  | cons x t ih =>
      intro hpre hB
      have hx : p x = false := hpre x (List.mem_cons_self x t)
      have ht : ∀ e ∈ t, p e = false := fun e he => hpre e (List.mem_cons_of_mem x he)
      simp [List.find?, hx, ih ht hB]

/-- C1: `matchNearestImage` returns `none` exactly on the empty catalog; on
a non-empty catalog it returns the path of an entry whose absolute
brightness delta to the target is minimal over the whole catalog, and that
entry is the first one in iteration (insertion) order with that minimal
delta: every entry strictly before it has a strictly larger delta.  The
minimality is over `|brightness - b|` in both directions, so matches are
never restricted to brightnesses greater than the target. -/
theorem matchNearestImage_spec (b : ℚ) (cat : List CatalogEntry) :
    (matchNearestImage b cat = none ↔ cat = []) ∧
    (cat ≠ [] → ∃ e pre suf, cat = pre ++ e :: suf ∧
      matchNearestImage b cat = some e.2 ∧
      (∀ x ∈ cat, |e.1 - b| ≤ |x.1 - b|) ∧
      (∀ x ∈ pre, |e.1 - b| < |x.1 - b|)) := by
  cases cat with
  | nil =>
      refine ⟨⟨fun _ => rfl, fun _ => rfl⟩, fun h => absurd rfl h⟩
  | cons e0 rest =>
      obtain ⟨hmin, hhead, hdisj⟩ := foldl_updBest_spec b rest e0
      have hB1 : (matchScan b (e0 :: rest)).1 = some (rest.foldl (updBest b) e0).1 := by
        rw [matchScan_cons]
      -- Full-list decomposition: the scan winner is the first entry of the
      -- whole catalog attaining the minimal delta.
      have hdec : ∃ pre suf, e0 :: rest = pre ++ (rest.foldl (updBest b) e0) :: suf ∧
          (∀ x ∈ e0 :: rest, entryDelta b (rest.foldl (updBest b) e0) ≤ entryDelta b x) ∧
          (∀ x ∈ pre, entryDelta b (rest.foldl (updBest b) e0) < entryDelta b x) := by
        rcases hdisj with heq | ⟨pre, suf, hsplit, hlt, hpre⟩
        · refine ⟨[], rest, by rw [List.nil_append, heq], ?_, by simp⟩
          intro x hx
          rcases List.mem_cons.mp hx with rfl | hx
          · exact hhead
          · exact hmin x hx
        · refine ⟨e0 :: pre, suf, by rw [List.cons_append, ← hsplit], ?_, ?_⟩
          · intro x hx
            rcases List.mem_cons.mp hx with rfl | hx
            · exact hhead
            · exact hmin x hx
          · intro x hx
            rcases List.mem_cons.mp hx with rfl | hx
            · exact hlt
            · exact hpre x hx
      obtain ⟨pre, suf, hsplit, hminAll, hpreAll⟩ := hdec
      have hfind : (e0 :: rest).find?
          (fun x => decide (x.1 = (rest.foldl (updBest b) e0).1)) =
          some (rest.foldl (updBest b) e0) := by
        rw [hsplit]
        refine find?_append_first _ _ _ pre ?_ (by simp)
        intro x hx
        have hne : x.1 ≠ (rest.foldl (updBest b) e0).1 := by
          intro hkey
          have : entryDelta b x = entryDelta b (rest.foldl (updBest b) e0) := by
            simp [entryDelta, hkey]
          exact absurd this (ne_of_gt (hpreAll x hx))
        simp [hne]
      have hres : matchNearestImage b (e0 :: rest) =
          some (rest.foldl (updBest b) e0).2 := by
        rw [matchNearestImage, hB1]
        show ((e0 :: rest).find?
            (fun e => decide (e.1 = (rest.foldl (updBest b) e0).1))).map Prod.snd =
          some (rest.foldl (updBest b) e0).2
        rw [hfind, Option.map_some']
      constructor
      · constructor
        · intro h; rw [hres] at h; exact absurd h (by simp)
        · intro h; exact absurd h (by simp)
      · intro _
        refine ⟨rest.foldl (updBest b) e0, pre, suf, hsplit, hres, ?_, ?_⟩
        · intro x hx; exact hminAll x hx
        · intro x hx; exact hpreAll x hx

/-- Witness for C1 at the concrete two-entry catalog of scenario A. -/
theorem matchNearestImage_spec_witness :
    ∃ e pre suf,
      ([((50 : ℚ), "dark.png"), ((200 : ℚ), "bright.png")] : List CatalogEntry) =
        pre ++ e :: suf ∧
      matchNearestImage 60 [((50 : ℚ), "dark.png"), ((200 : ℚ), "bright.png")] = some e.2 ∧
      (∀ x ∈ ([((50 : ℚ), "dark.png"), ((200 : ℚ), "bright.png")] : List CatalogEntry),
        |e.1 - 60| ≤ |x.1 - 60|) ∧
      (∀ x ∈ pre, |e.1 - 60| < |x.1 - 60|) :=
  (matchNearestImage_spec 60 [((50 : ℚ), "dark.png"), ((200 : ℚ), "bright.png")]).2
    (by simp)

/-- The catalog of end-to-end scenario A: `{(50, "dark.png"), (200, "bright.png")}`. -/
def scenarioCatalog : List CatalogEntry :=
  [((50 : ℚ), "dark.png"), ((200 : ℚ), "bright.png")]

/-- C2 counterexample: on the scenario-A catalog, a target brightness of 130
does NOT match `"dark.png"`; the code returns `"bright.png"` because
`|130 - 200| = 70 < 80 = |130 - 50|`. -/
theorem scenarioA_130_not_dark :
    matchNearestImage 130 scenarioCatalog = some "bright.png" ∧
    matchNearestImage 130 scenarioCatalog ≠ some "dark.png" := by
  have h1 : matchNearestImage 130 scenarioCatalog = some "bright.png" := by
    norm_num [matchNearestImage, matchScan, scanStep, scenarioCatalog, List.find?]
  refine ⟨h1, ?_⟩
  rw [h1]
  intro h
  have : ("bright.png" : String) = "dark.png" := Option.some.inj h
  simp at this

/-- C2 amended: with catalog `[(50, "dark.png"), (200, "bright.png")]`,
target brightness 60 matches `"dark.png"` and target brightness 130 matches
`"bright.png"` (the smaller delta, 70 versus 80, wins). -/
theorem scenarioA_matches :
    matchNearestImage 60 scenarioCatalog = some "dark.png" ∧
    matchNearestImage 130 scenarioCatalog = some "bright.png" := by
  constructor <;>
    norm_num [matchNearestImage, matchScan, scanStep, scenarioCatalog, List.find?]

theorem foldl_add_from (l : List ℕ) :
    ∀ a : ℕ, l.foldl (fun s v => s + v) a = a + l.sum := by
  induction l with
  | nil => intro a; simp
  | cons x t ih => intro a; rw [List.foldl_cons, ih, List.sum_cons]; omega

theorem sum_replicate_nat (v : ℕ) : ∀ n : ℕ, (List.replicate n v).sum = n * v := by
  intro n
  induction n with
  | zero => simp
  | succ k ih => rw [List.replicate_succ, List.sum_cons, ih]; ring

theorem deriveMeanBrightness_ok (l : List ℕ) (h : l ≠ []) :
    deriveMeanBrightness l =
      .ok (l, ((l.map (fun v : ℕ => (v : ℚ))).sum) / (l.length : ℚ)) := by
  have hlen : l.length ≠ 0 := fun h0 => h (List.length_eq_zero.mp h0)
  have hpos : 0 < l.length := Nat.pos_of_ne_zero hlen
  have hsum : ((l.foldl (fun s v => s + v) 0 : ℕ) : ℚ) =
      (l.map (fun v : ℕ => (v : ℚ))).sum := by
    rw [foldl_add_from l 0, Nat.zero_add, Nat.cast_list_sum]
  simp only [deriveMeanBrightness]
  rw [if_neg hlen, if_pos hpos, hsum]

/-- C4: for every non-empty grayscale byte buffer, `deriveMeanBrightness`
returns the arithmetic mean — the sum of all values (accumulated left to
right) divided by the length; in particular a uniform buffer of value `v`
yields exactly `v`. -/
theorem deriveMeanBrightness_mean (l : List ℕ) (h : l ≠ []) :
    deriveMeanBrightness l =
      .ok (l, ((l.map (fun v : ℕ => (v : ℚ))).sum) / (l.length : ℚ)) ∧
    (∀ (v n : ℕ), 0 < n →
      deriveMeanBrightness (List.replicate n v) = .ok (List.replicate n v, (v : ℚ))) := by
  refine ⟨deriveMeanBrightness_ok l h, ?_⟩
  intro v n hn
  have hn0 : n ≠ 0 := by omega
  have hne : (List.replicate n v : List ℕ) ≠ [] :=
    List.length_pos.mp (by simpa using hn)
  rw [deriveMeanBrightness_ok _ hne]
  have hcast : (((List.replicate n v).map (fun x : ℕ => (x : ℚ))).sum) =
      (n : ℚ) * (v : ℚ) := by
    rw [← Nat.cast_list_sum, sum_replicate_nat]
    push_cast
    ring
  have hlen : (((List.replicate n v).length : ℕ) : ℚ) = (n : ℚ) := by simp
  rw [hcast, hlen]
  have hq : (n : ℚ) ≠ 0 := Nat.cast_ne_zero.mpr hn0
  rw [mul_comm, mul_div_assoc, div_self hq, mul_one]

/-- Witness for C4 at the concrete buffer `[7, 7, 7]`. -/
theorem deriveMeanBrightness_mean_witness :
    deriveMeanBrightness [7, 7, 7] =
      .ok ([7, 7, 7],
        ((([7, 7, 7] : List ℕ).map (fun v : ℕ => (v : ℚ))).sum) /
          (([7, 7, 7] : List ℕ).length : ℚ)) ∧
    (∀ (v n : ℕ), 0 < n →
      deriveMeanBrightness (List.replicate n v) = .ok (List.replicate n v, (v : ℚ))) :=
  deriveMeanBrightness_mean [7, 7, 7] (by simp)

/-- C5: `deriveMeanBrightness` fails with an error exactly when the input
buffer is empty; every non-empty input returns normally, and the divisor
used for the mean (the buffer length) is nonzero, so no division by zero is
performed. -/
theorem deriveMeanBrightness_error_iff (l : List ℕ) :
    ((∃ msg, deriveMeanBrightness l = .error msg) ↔ l.length = 0) ∧
    (l.length ≠ 0 →
      ∃ p, deriveMeanBrightness l = .ok p ∧ (l.length : ℚ) ≠ 0) := by
  constructor
  · constructor
    · rintro ⟨msg, hmsg⟩
      by_contra h0
      simp only [deriveMeanBrightness] at hmsg
      rw [if_neg h0] at hmsg
      exact absurd hmsg (by simp)
    · intro h0
      refine ⟨"No grayscale data provided", ?_⟩
      simp only [deriveMeanBrightness]
      rw [if_pos h0]
  · intro h0
    have h : l ≠ [] := fun hnil => h0 (by rw [hnil]; rfl)
    refine ⟨_, deriveMeanBrightness_ok l h, ?_⟩
    exact Nat.cast_ne_zero.mpr h0

/-- Witness for C5: the empty buffer errors, the buffer `[5]` succeeds. -/
theorem deriveMeanBrightness_error_iff_witness :
    (∃ msg, deriveMeanBrightness [] = .error msg) ∧
    (∃ p, deriveMeanBrightness [5] = .ok p ∧ (([5] : List ℕ).length : ℚ) ≠ 0) :=
  ⟨(deriveMeanBrightness_error_iff []).1.mpr rfl,
   (deriveMeanBrightness_error_iff [5]).2 (by simp)⟩

/-- Association-list lookup keyed on the exact brightness value, modelling
`Map.get` on the insertion-ordered `swapImageMap`. -/
def mapLookup (k : ℚ) : List CatalogEntry → Option String
  | [] => none
  | e :: rest => if e.1 = k then some e.2 else mapLookup k rest

/-- `Map.has` on the brightness-keyed map. -/
def mapHas (k : ℚ) (m : List CatalogEntry) : Bool := (mapLookup k m).isSome

/-- The loop body of `processSwapImages`: insert the `(meanBrightness,
imageOutPath)` pair only when the brightness is not yet a key
(`if (!swapImageMap.has(meanBrightness)) swapImageMap.set(...)`); a
JavaScript `Map.set` of a fresh key appends in insertion order. -/
def swapStep (m : List CatalogEntry) (e : CatalogEntry) : List CatalogEntry :=
  if mapHas e.1 m then m else m ++ [e]

/-- `processSwapImages` from `main.ts`, abstracted over the list of
`(meanBrightness, imageOutPath)` results that `SwapImage.transformAndOutput`
produces for the reference images in directory iteration order. -/
def processSwapImages (images : List CatalogEntry) : List CatalogEntry :=
  images.foldl swapStep []

theorem mapLookup_append_single (k : ℚ) (e : CatalogEntry) :
    ∀ m : List CatalogEntry,
      mapLookup k (m ++ [e]) =
        match mapLookup k m with
        | some v => some v
        | none => if e.1 = k then some e.2 else none := by
  intro m
  induction m with
  | nil => simp [mapLookup]
  | cons x rest ih =>
      by_cases hx : x.1 = k
      · simp [mapLookup, hx]
      · simp only [List.cons_append, mapLookup, if_neg hx]
        exact ih

theorem mapLookup_none_not_mem (k : ℚ) :
    ∀ m : List CatalogEntry, mapLookup k m = none → k ∉ m.map Prod.fst := by
  intro m
  induction m with
  | nil => simp
  | cons e rest ih =>
      intro h
      by_cases he : e.1 = k
      · rw [mapLookup, if_pos he] at h
        exact absurd h (by simp)
      · rw [mapLookup, if_neg he] at h
        simp only [List.map_cons, List.mem_cons]
        rintro (h1 | h1)
        · exact he h1.symm
        · exact ih h h1

theorem mapHas_true_some (k : ℚ) (m : List CatalogEntry) (h : mapHas k m = true) :
    ∃ v, mapLookup k m = some v := by
  cases hmv : mapLookup k m with
  | none => rw [mapHas, hmv] at h; exact absurd h (by simp)
  | some v => exact ⟨v, rfl⟩

theorem mapHas_false_none (k : ℚ) (m : List CatalogEntry) (h : ¬ mapHas k m = true) :
    mapLookup k m = none := by
  cases hmv : mapLookup k m with
  | none => rfl
  | some v => exact absurd (by rw [mapHas, hmv]; rfl) h

theorem swapFold_keys_nodup :
    ∀ (l : List CatalogEntry) (m : List CatalogEntry),
      (m.map Prod.fst).Nodup → ((l.foldl swapStep m).map Prod.fst).Nodup := by
  intro l
  induction l with
  | nil => intro m hm; exact hm
  | cons e rest ih =>
      intro m hm
      rw [List.foldl_cons]
      refine ih (swapStep m e) ?_
      by_cases h : mapHas e.1 m
      · rw [swapStep, if_pos h]; exact hm
      · rw [swapStep, if_neg h]
        have hnotmem : e.1 ∉ m.map Prod.fst :=
          mapLookup_none_not_mem e.1 m (mapHas_false_none e.1 m h)
        rw [List.map_append]
        simp [List.nodup_append, hm, hnotmem]

theorem swapStep_lookup_other (b : ℚ) (m : List CatalogEntry) (e : CatalogEntry)
    (heb : ¬ e.1 = b) : mapLookup b (swapStep m e) = mapLookup b m := by
  by_cases hhas : mapHas e.1 m
  · rw [swapStep, if_pos hhas]
  · rw [swapStep, if_neg hhas, mapLookup_append_single]
    cases hmv : mapLookup b m with
    | some v => rfl
    | none => rw [if_neg heb]

theorem swapFold_lookup (b : ℚ) :
    ∀ (l : List CatalogEntry) (m : List CatalogEntry),
      mapLookup b (l.foldl swapStep m) =
        match mapLookup b m with
        | some v => some v
        | none => (l.find? (fun x => decide (x.1 = b))).map Prod.snd := by
  intro l
  induction l with
  | nil =>
      intro m
      cases hmv : mapLookup b m <;> simp [List.foldl_nil, hmv]
  | cons e rest ih =>
      intro m
      rw [List.foldl_cons, ih (swapStep m e)]
      by_cases heb : e.1 = b
      · have hfind : List.find? (fun x => decide (x.1 = b)) (e :: rest) = some e := by
          simp [List.find?, heb]
        rw [hfind]
        by_cases hhas : mapHas e.1 m
        · obtain ⟨v, hv⟩ := mapHas_true_some e.1 m hhas
          have hv' : mapLookup b m = some v := heb ▸ hv
          rw [swapStep, if_pos hhas, hv']
        · have hnone : mapLookup b m = none := heb ▸ mapHas_false_none e.1 m hhas
          rw [swapStep, if_neg hhas, mapLookup_append_single, hnone, if_pos heb]
          rfl
      · have hfind : List.find? (fun x => decide (x.1 = b)) (e :: rest) =
            List.find? (fun x => decide (x.1 = b)) rest := by
          simp [List.find?, heb]
        rw [hfind, swapStep_lookup_other b m e heb]

/-- C6: after the catalog build, the brightness keys of the resulting map
are pairwise distinct (at most one path per exact brightness value); the
path stored under any brightness `b` is the output path of the
first-processed reference image whose mean brightness is exactly `b` (and a
brightness is present iff some processed image produced it); appending a
further image whose brightness is already a key leaves the map unchanged. -/
theorem processSwapImages_spec (l : List CatalogEntry) (b : ℚ) (e : CatalogEntry) :
    ((processSwapImages l).map Prod.fst).Nodup ∧
    mapLookup b (processSwapImages l) =
      (l.find? (fun x => decide (x.1 = b))).map Prod.snd ∧
    (mapHas e.1 (processSwapImages l) = true →
      processSwapImages (l ++ [e]) = processSwapImages l) := by
  refine ⟨swapFold_keys_nodup l [] (by simp), ?_, ?_⟩
  · rw [processSwapImages, swapFold_lookup b l []]
    simp [mapLookup]
  · intro hhas
    rw [processSwapImages, List.foldl_append]
    show swapStep (processSwapImages l) e = processSwapImages l
    rw [swapStep, if_pos hhas]

/-- Two reference images with the same exact mean brightness, used to
exercise the first-seen-wins collapsing of the catalog build. -/
def demoImages : List CatalogEntry := [((50 : ℚ), "a.png"), ((50 : ℚ), "b.png")]

/-- Witness for C6 on two images with identical brightness 50. -/
theorem processSwapImages_spec_witness :
    ((processSwapImages demoImages).map Prod.fst).Nodup ∧
    mapLookup 50 (processSwapImages demoImages) =
      (demoImages.find? (fun x => decide (x.1 = 50))).map Prod.snd ∧
    processSwapImages (demoImages ++ [((50 : ℚ), "c.png")]) =
      processSwapImages demoImages :=
  ⟨(processSwapImages_spec demoImages 50 ((50 : ℚ), "c.png")).1,
   (processSwapImages_spec demoImages 50 ((50 : ℚ), "c.png")).2.1,
   (processSwapImages_spec demoImages 50 ((50 : ℚ), "c.png")).2.2
     (by norm_num [demoImages, processSwapImages, swapStep, mapHas, mapLookup])⟩

/-- The cache key of `getCachedResizedImage`:
`` `${framePath}:${width}x${height}` ``. -/
def cacheKey (framePath : String) (width height : ℕ) : String :=
  framePath ++ ":" ++ toString width ++ "x" ++ toString height

/-- Lookup in the worker-local `imageCache` map (insertion-ordered
association list from cache keys to resized buffers). -/
def cacheLookup (k : String) : List (String × List ℕ) → Option (List ℕ)
  | [] => none
  | e :: rest => if e.1 = k then some e.2 else cacheLookup k rest

/-- `getCachedResizedImage` from `worker.ts`.  `resize` abstracts
`sharp(framePath).resize(width, height).toBuffer()`.  The call is modelled
as a state transformer returning the produced buffer, the cache after the
call, and how many times the underlying resize ran during the call: on a
hit the stored buffer is returned and nothing changes; on a miss the resize
runs once and the result is stored under the key (a fresh `Map.set` key
appends in insertion order), then returned via `imageCache.get(cacheKey)!`. -/
def getCachedResizedImage (resize : String → ℕ → ℕ → List ℕ)
    (cache : List (String × List ℕ)) (framePath : String) (width height : ℕ) :
    List ℕ × List (String × List ℕ) × ℕ :=
  match cacheLookup (cacheKey framePath width height) cache with
  | some buf => (buf, cache, 0)
  | none =>
      let resizedBuffer := resize framePath width height
      (resizedBuffer, cache ++ [(cacheKey framePath width height, resizedBuffer)], 1)

/-- The result of the `(k+1)`-st sequential call to `getCachedResizedImage`
with a fixed key, threading the cache state through the calls. -/
def getCachedIter (resize : String → ℕ → ℕ → List ℕ) (framePath : String)
    (width height : ℕ) : ℕ → List (String × List ℕ) → List ℕ × List (String × List ℕ) × ℕ
  | 0, cache => getCachedResizedImage resize cache framePath width height
  | Nat.succ k, cache =>
      getCachedIter resize framePath width height k
        (getCachedResizedImage resize cache framePath width height).2.1

theorem cacheLookup_append_self (k : String) (v : List ℕ) :
    ∀ c, cacheLookup k c = none → cacheLookup k (c ++ [(k, v)]) = some v := by
  intro c
  induction c with
  | nil => intro _; simp [cacheLookup]
  | cons e rest ih =>
      intro h
      by_cases he : e.1 = k
      · rw [cacheLookup, if_pos he] at h
        exact absurd h (by simp)
      · rw [cacheLookup, if_neg he] at h
        rw [List.cons_append, cacheLookup, if_neg he]
        exact ih h

theorem getCached_lookup_after (resize : String → ℕ → ℕ → List ℕ)
    (cache : List (String × List ℕ)) (framePath : String) (width height : ℕ) :
    cacheLookup (cacheKey framePath width height)
        (getCachedResizedImage resize cache framePath width height).2.1 =
      some (getCachedResizedImage resize cache framePath width height).1 := by
  cases hc : cacheLookup (cacheKey framePath width height) cache with
  | some buf => simp [getCachedResizedImage, hc]
  | none =>
      simp only [getCachedResizedImage, hc]
      exact cacheLookup_append_self _ _ cache hc

/-- C7: after one call to `getCachedResizedImage` for a key, every
subsequent sequential call with the same key returns a buffer byte-identical
to the first call's result, leaves the cache untouched, and runs the
underlying resize zero times (the first call itself runs it at most once). -/
theorem getCachedResizedImage_idempotent (resize : String → ℕ → ℕ → List ℕ)
    (cache : List (String × List ℕ)) (framePath : String) (width height : ℕ) :
    getCachedResizedImage resize
        (getCachedResizedImage resize cache framePath width height).2.1
        framePath width height =
      ((getCachedResizedImage resize cache framePath width height).1,
       (getCachedResizedImage resize cache framePath width height).2.1, 0) ∧
    (getCachedResizedImage resize cache framePath width height).2.2 ≤ 1 ∧
    (∀ k : ℕ, getCachedIter resize framePath width height (k + 1) cache =
      ((getCachedResizedImage resize cache framePath width height).1,
       (getCachedResizedImage resize cache framePath width height).2.1, 0)) := by
  have hfix : getCachedResizedImage resize
      (getCachedResizedImage resize cache framePath width height).2.1
      framePath width height =
      ((getCachedResizedImage resize cache framePath width height).1,
       (getCachedResizedImage resize cache framePath width height).2.1, 0) := by
    have h := getCached_lookup_after resize cache framePath width height
    rw [getCachedResizedImage, h]
  have hcount : (getCachedResizedImage resize cache framePath width height).2.2 ≤ 1 := by
    cases hc : cacheLookup (cacheKey framePath width height) cache with
    | some buf => simp [getCachedResizedImage, hc]
    | none => simp [getCachedResizedImage, hc]
  have hiter : ∀ k : ℕ, getCachedIter resize framePath width height k
      (getCachedResizedImage resize cache framePath width height).2.1 =
      ((getCachedResizedImage resize cache framePath width height).1,
       (getCachedResizedImage resize cache framePath width height).2.1, 0) := by
    intro k
    induction k with
    | zero => exact hfix
    | succ n ih =>
        show getCachedIter resize framePath width height n
            (getCachedResizedImage resize
              (getCachedResizedImage resize cache framePath width height).2.1
              framePath width height).2.1 = _
        rw [hfix]
        exact ih
  exact ⟨hfix, hcount, fun k => hiter k⟩

/-- A concrete stand-in for the external resize primitive. -/
def resizeStub : String → ℕ → ℕ → List ℕ :=
  fun _ width height => List.replicate (width * height) 7

/-- Witness for C7 at a concrete key and empty initial cache. -/
theorem getCachedResizedImage_idempotent_witness :
    getCachedResizedImage resizeStub
        (getCachedResizedImage resizeStub [] "ref.png" 2 2).2.1 "ref.png" 2 2 =
      ((getCachedResizedImage resizeStub [] "ref.png" 2 2).1,
       (getCachedResizedImage resizeStub [] "ref.png" 2 2).2.1, 0) ∧
    (getCachedResizedImage resizeStub [] "ref.png" 2 2).2.2 ≤ 1 :=
  ⟨(getCachedResizedImage_idempotent resizeStub [] "ref.png" 2 2).1,
   (getCachedResizedImage_idempotent resizeStub [] "ref.png" 2 2).2.1⟩

/-- A rectangular tile of a frame's pixel grid, as produced by the
decomposition loop of `processFrame`. -/
structure Tile where
  x : ℕ
  y : ℕ
  width : ℕ
  height : ℕ
deriving DecidableEq

/-- `Math.ceil(a / b)` on non-negative integers, as in
`tilesX = Math.ceil(width / TILE_SIZE)`. -/
def ceilDiv (a b : ℕ) : ℕ := (a + b - 1) / b

/-- The tile emitted at raster position `(tileX, tileY)`:
`x = tileX*T`, `y = tileY*T`, `width = min(T, W - x)`,
`height = min(T, H - y)`. -/
def tileAt (W H T tX tY : ℕ) : Tile :=
  ⟨tX * T, tY * T, min T (W - tX * T), min T (H - tY * T)⟩

/-- The tile decomposition loop of `processFrame`: for `tileY` from `0` to
`tilesY - 1` (outer), `tileX` from `0` to `tilesX - 1` (inner), emit
`tileAt W H T tileX tileY` — the row-major raster sequence of tiles. -/
def frameTiles (W H T : ℕ) : List Tile :=
  (List.range (ceilDiv H T)).flatMap fun tileY =>
    (List.range (ceilDiv W T)).map fun tileX => tileAt W H T tileX tileY

/-- Pixel `(px, py)` lies inside tile `t`. -/
def tileContains (t : Tile) (px py : ℕ) : Prop :=
  t.x ≤ px ∧ px < t.x + t.width ∧ t.y ≤ py ∧ py < t.y + t.height

instance (t : Tile) (px py : ℕ) : Decidable (tileContains t px py) := by
  unfold tileContains; infer_instance

theorem ceilDiv_lt_iff (a b k : ℕ) (hb : 0 < b) : k < ceilDiv a b ↔ k * b < a := by
  unfold ceilDiv
  constructor
  · intro h
    have h2 : (k + 1) * b ≤ a + b - 1 := (Nat.le_div_iff_mul_le hb).mp h
    have h3 : (k + 1) * b = k * b + b := by ring
    omega
  · intro h
    have h3 : (k + 1) * b = k * b + b := by ring
    have h2 : (k + 1) * b ≤ a + b - 1 := by omega
    exact (Nat.le_div_iff_mul_le hb).mpr h2

theorem le_ceilDiv_mul (a b : ℕ) (hb : 0 < b) : a ≤ ceilDiv a b * b := by
  by_contra h
  push_neg at h
  have := (ceilDiv_lt_iff a b (ceilDiv a b) hb).mpr h
  omega

theorem mem_frameTiles_iff (W H T : ℕ) (t : Tile) :
    t ∈ frameTiles W H T ↔
      ∃ tX tY, tX < ceilDiv W T ∧ tY < ceilDiv H T ∧ t = tileAt W H T tX tY := by
  unfold frameTiles
  simp only [List.mem_flatMap, List.mem_map, List.mem_range]
  constructor
  · rintro ⟨tY, hY, tX, hX, rfl⟩
    exact ⟨tX, tY, hX, hY, rfl⟩
  · rintro ⟨tX, tY, hX, hY, rfl⟩
    exact ⟨tY, hY, tX, hX, rfl⟩

theorem tile_bounds (W H T : ℕ) (hT : 0 < T) (t : Tile) (ht : t ∈ frameTiles W H T) :
    0 < t.width ∧ 0 < t.height ∧ t.x + t.width ≤ W ∧ t.y + t.height ≤ H := by
  obtain ⟨tX, tY, hX, hY, rfl⟩ := (mem_frameTiles_iff W H T t).mp ht
  have hxW : tX * T < W := (ceilDiv_lt_iff W T tX hT).mp hX
  have hyH : tY * T < H := (ceilDiv_lt_iff H T tY hT).mp hY
  have hw1 : min T (W - tX * T) ≤ W - tX * T := Nat.min_le_right _ _
  have hh1 : min T (H - tY * T) ≤ H - tY * T := Nat.min_le_right _ _
  have hw2 : 0 < min T (W - tX * T) := lt_min_iff.mpr ⟨hT, by omega⟩
  have hh2 : 0 < min T (H - tY * T) := lt_min_iff.mpr ⟨hT, by omega⟩
  exact ⟨hw2, hh2, by simp only [tileAt]; omega, by simp only [tileAt]; omega⟩

theorem range_flatMap_length (n : ℕ) (g : ℕ → ℕ → Tile) (m : ℕ) :
    ((List.range m).flatMap fun j => (List.range n).map (g j)).length = m * n := by
  rw [List.length_flatMap]
  have h1 : List.map (List.length ∘ fun j => (List.range n).map (g j)) (List.range m) =
      List.replicate m n := by
    rw [show (List.length ∘ fun j => (List.range n).map (g j)) =
        Function.const ℕ n from ?_, List.map_const, List.length_range]
    funext j
    simp
  rw [h1, List.sum_replicate, smul_eq_mul]

theorem range_flatMap_getElem (n : ℕ) (g : ℕ → ℕ → Tile) :
    ∀ (m y x : ℕ), y < m → x < n →
      ((List.range m).flatMap fun j => (List.range n).map (g j))[y * n + x]? =
        some (g y x) := by
  intro m
  induction m with
  | zero => intro y x hy _; omega
  | succ m ih =>
      intro y x hy hx
      rw [List.range_succ, List.flatMap_append]
      by_cases hym : y < m
      · have hidx : y * n + x < m * n := by
          have hs : (y + 1) * n = y * n + n := by ring
          have hle : (y + 1) * n ≤ m * n := Nat.mul_le_mul_right n hym
          omega
        rw [List.getElem?_append]
        rw [if_pos (by rw [range_flatMap_length]; exact hidx)]
        exact ih y x hym hx
      · have hy' : y = m := by omega
        subst hy'
        rw [List.getElem?_append_right (by rw [range_flatMap_length]; omega)]
        rw [range_flatMap_length]
        have hsub : y * n + x - y * n = x := by omega
        rw [hsub]
        have hsingle : ([y].flatMap fun j => (List.range n).map (g j)) =
            (List.range n).map (g y) := by simp
        rw [hsingle, List.getElem?_map, List.getElem?_range hx, Option.map_some']

theorem frameTiles_nodup (W H T : ℕ) (hT : 0 < T) : (frameTiles W H T).Nodup := by
  unfold frameTiles
  rw [List.nodup_flatMap]
  constructor
  · intro tY _
    refine List.Nodup.map ?_ (List.nodup_range _)
    intro a b hab
    have : a * T = b * T := congrArg Tile.x hab
    exact Nat.eq_of_mul_eq_mul_right hT this
  · refine List.Pairwise.imp ?_ (List.pairwise_lt_range _)
    intro a b hab t hta htb
    obtain ⟨tX1, _, h1⟩ := List.mem_map.mp hta
    obtain ⟨tX2, _, h2⟩ := List.mem_map.mp htb
    have hy : a * T = b * T := by
      have ha : t.y = a * T := by rw [← h1]; rfl
      have hb : t.y = b * T := by rw [← h2]; rfl
      rw [← ha, hb]
    have : a = b := Nat.eq_of_mul_eq_mul_right hT hy
    omega

theorem frameTiles_cover (W H T : ℕ) (hT : 0 < T) (px py : ℕ)
    (hpx : px < W) (hpy : py < H) :
    ∃! t, t ∈ frameTiles W H T ∧ tileContains t px py := by
  have hdmW := Nat.div_add_mod px T
  have hmodW := Nat.mod_lt px hT
  have hdmH := Nat.div_add_mod py T
  have hmodH := Nat.mod_lt py hT
  have hcw : T * (px / T) = px / T * T := Nat.mul_comm _ _
  have hch : T * (py / T) = py / T * T := Nat.mul_comm _ _
  have hxle : px / T * T ≤ px := by omega
  have hyle : py / T * T ≤ py := by omega
  have hxlt : px < px / T * T + T := by omega
  have hylt : py < py / T * T + T := by omega
  have hX : px / T < ceilDiv W T := by
    rw [ceilDiv_lt_iff W T _ hT]; omega
  have hY : py / T < ceilDiv H T := by
    rw [ceilDiv_lt_iff H T _ hT]; omega
  refine ⟨tileAt W H T (px / T) (py / T),
    ⟨(mem_frameTiles_iff W H T _).mpr ⟨px / T, py / T, hX, hY, rfl⟩, ?_⟩, ?_⟩
  · have hxproj : (tileAt W H T (px / T) (py / T)).x = px / T * T := rfl
    have hyproj : (tileAt W H T (px / T) (py / T)).y = py / T * T := rfl
    refine ⟨hxle, ?_, hyle, ?_⟩
    · rcases Nat.le_total T (W - px / T * T) with hmin | hmin
      · rw [show (tileAt W H T (px / T) (py / T)).width = min T (W - px / T * T) from rfl,
          Nat.min_eq_left hmin]
        exact hxlt
      · rw [show (tileAt W H T (px / T) (py / T)).width = min T (W - px / T * T) from rfl,
          Nat.min_eq_right hmin]
        omega
    · rcases Nat.le_total T (H - py / T * T) with hmin | hmin
      · rw [show (tileAt W H T (px / T) (py / T)).height = min T (H - py / T * T) from rfl,
          Nat.min_eq_left hmin]
        exact hylt
      · rw [show (tileAt W H T (px / T) (py / T)).height = min T (H - py / T * T) from rfl,
          Nat.min_eq_right hmin]
        omega
  · rintro t ⟨ht, hcont⟩
    obtain ⟨tX, tY, hX', hY', rfl⟩ := (mem_frameTiles_iff W H T t).mp ht
    obtain ⟨hc1, hc2, hc3, hc4⟩ := hcont
    have hwle : (tileAt W H T tX tY).width ≤ T := Nat.min_le_left _ _
    have hhle : (tileAt W H T tX tY).height ≤ T := Nat.min_le_left _ _
    have hx1 : tX * T ≤ px := hc1
    have hx2 : px < tX * T + T := by
      have : (tileAt W H T tX tY).x = tX * T := rfl
      omega
    have hy1 : tY * T ≤ py := hc3
    have hy2 : py < tY * T + T := by
      have : (tileAt W H T tX tY).y = tY * T := rfl
      omega
    have hdx : px / T = tX :=
      Nat.div_eq_of_lt_le hx1 (by rw [show (tX + 1) * T = tX * T + T from by ring]; exact hx2)
    have hdy : py / T = tY :=
      Nat.div_eq_of_lt_le hy1 (by rw [show (tY + 1) * T = tY * T + T from by ring]; exact hy2)
    rw [hdx, hdy]

/-- C3: for positive `W`, `H`, `T`, the decomposition loop emits exactly
`ceil(W/T) * ceil(H/T)` tiles; the tile at row-major raster index
`tileY * tilesX + tileX` is `{x = tileX*T, y = tileY*T,
width = min(T, W - tileX*T), height = min(T, H - tileY*T)}`; every emitted
tile has positive width and height and lies inside the frame; every pixel
of `[0,W) × [0,H)` lies in exactly one emitted tile (so distinct tiles are
disjoint), and no tile is emitted twice; an 18×18 frame with `T = 16`
yields exactly the four claimed tiles. -/
theorem frameTiles_spec (W H T : ℕ) (hW : 0 < W) (hH : 0 < H) (hT : 0 < T) :
    (frameTiles W H T).length = ceilDiv W T * ceilDiv H T ∧
    (∀ tX tY, tX < ceilDiv W T → tY < ceilDiv H T →
      (frameTiles W H T)[tY * ceilDiv W T + tX]? =
        some ⟨tX * T, tY * T, min T (W - tX * T), min T (H - tY * T)⟩) ∧
    (∀ t ∈ frameTiles W H T,
      0 < t.width ∧ 0 < t.height ∧ t.x + t.width ≤ W ∧ t.y + t.height ≤ H) ∧
    (∀ px py, px < W → py < H →
      ∃! t, t ∈ frameTiles W H T ∧ tileContains t px py) ∧
    (frameTiles W H T).Nodup ∧
    frameTiles 18 18 16 =
      [⟨0, 0, 16, 16⟩, ⟨16, 0, 2, 16⟩, ⟨0, 16, 16, 2⟩, ⟨16, 16, 2, 2⟩] := by
  refine ⟨?_, ?_, ?_, ?_, ?_, ?_⟩
  · rw [frameTiles, range_flatMap_length, Nat.mul_comm]
  · intro tX tY hX hY
    exact range_flatMap_getElem (ceilDiv W T) (fun j x => tileAt W H T x j)
      (ceilDiv H T) tY tX hY hX
  · intro t ht
    exact tile_bounds W H T hT t ht
  · intro px py hpx hpy
    exact frameTiles_cover W H T hT px py hpx hpy
  · exact frameTiles_nodup W H T hT
  · decide

/-- Witness for C3 at the 18×18 frame with tile size 16. -/
theorem frameTiles_spec_witness :
    (frameTiles 18 18 16).length = ceilDiv 18 16 * ceilDiv 18 16 ∧
    (frameTiles 18 18 16).Nodup :=
  ⟨(frameTiles_spec 18 18 16 (by decide) (by decide) (by decide)).1,
   (frameTiles_spec 18 18 16 (by decide) (by decide) (by decide)).2.2.2.2.1⟩

/-- C10: for every tile of the decomposition and every row and column of
that tile, the source index read from the frame's grayscale buffer
(`(y + row) * W + x + col`, with `rowStride = W`) is below `W * H`, and the
destination index written into `tileRaw` (`row * tileWidth + col`) is below
`tileWidth * tileHeight` — every copy stays in bounds of both buffers. -/
theorem tileCopy_in_bounds (W H T : ℕ) (hT : 0 < T) (t : Tile)
    (ht : t ∈ frameTiles W H T) (row col : ℕ)
    (hrow : row < t.height) (hcol : col < t.width) :
    (t.y + row) * W + t.x + col < W * H ∧
    row * t.width + col < t.width * t.height := by
  obtain ⟨hwpos, hhpos, hxw, hyh⟩ := tile_bounds W H T hT t ht
  constructor
  · have h1 : t.y + row + 1 ≤ H := by omega
    have h2 : (t.y + row + 1) * W ≤ H * W := Nat.mul_le_mul_right W h1
    have h3 : (t.y + row + 1) * W = (t.y + row) * W + W := by ring
    have h4 : t.x + col < W := by omega
    have h5 : H * W = W * H := Nat.mul_comm _ _
    omega
  · have h1 : row + 1 ≤ t.height := hrow
    have h2 : (row + 1) * t.width ≤ t.height * t.width := Nat.mul_le_mul_right _ h1
    have h3 : (row + 1) * t.width = row * t.width + t.width := by ring
    have h4 : t.height * t.width = t.width * t.height := Nat.mul_comm _ _
    omega

/-- Witness for C10 at the bottom-right clipped tile of the 18×18 frame. -/
theorem tileCopy_in_bounds_witness :
    ((⟨16, 16, 2, 2⟩ : Tile).y + 1) * 18 + (⟨16, 16, 2, 2⟩ : Tile).x + 1 < 18 * 18 ∧
    1 * (⟨16, 16, 2, 2⟩ : Tile).width + 1 <
      (⟨16, 16, 2, 2⟩ : Tile).width * (⟨16, 16, 2, 2⟩ : Tile).height :=
  tileCopy_in_bounds 18 18 16 (by decide) ⟨16, 16, 2, 2⟩ (by decide) 1 1
    (by decide) (by decide)

/-- One composite placement `{input, left, top}` pushed onto
`compositeOperations` by the per-tile loop of `processFrame`. -/
structure CompositeOp where
  input : List ℕ
  left : ℕ
  top : ℕ
deriving DecidableEq

/-- What a single tile contributes: the per-tile work (mean brightness,
nearest match, cached resize) is abstracted as `tileStep`, which either
fails (`Except.error`, modelling a thrown decode/resize error), succeeds
with no match (`Except.ok none`, empty catalog), or succeeds with a
placement.  This is the value pushed — `none` when nothing is pushed. -/
def tileResultOp (tileStep : Tile → Except String (Option CompositeOp))
    (t : Tile) : Option CompositeOp :=
  match tileStep t with
  | .ok (some op) => some op
  | .ok none => none
  | .error _ => none

/-- The per-tile loop of `processFrame`: iterate the tiles in raster order,
`try` the tile's work, push a composite operation on success-with-match,
and on a caught error just log and continue with the next tile. -/
def collectCompositeOperations (tileStep : Tile → Except String (Option CompositeOp))
    (ts : List Tile) : List CompositeOp :=
  ts.foldl
    (fun ops t =>
      match tileStep t with
      | .ok (some op) => ops ++ [op]
      | .ok none => ops
      | .error _ => ops)
    []

theorem collect_foldl_acc (step : Tile → Except String (Option CompositeOp)) :
    ∀ (ts : List Tile) (acc : List CompositeOp),
      ts.foldl
        (fun ops t =>
          match step t with
          | .ok (some op) => ops ++ [op]
          | .ok none => ops
          | .error _ => ops)
        acc = acc ++ ts.filterMap (tileResultOp step) := by
  intro ts
  induction ts with
  | nil => intro acc; simp
  | cons t rest ih =>
      intro acc
      rw [List.foldl_cons, List.filterMap_cons]
      cases hstep : step t with
      | error msg =>
          rw [show tileResultOp step t = none from by rw [tileResultOp, hstep]]
          simp only [hstep]
          exact ih acc
      | ok o =>
          cases o with
          | none =>
              rw [show tileResultOp step t = none from by rw [tileResultOp, hstep]]
              simp only [hstep]
              exact ih acc
          | some op =>
              rw [show tileResultOp step t = some op from by rw [tileResultOp, hstep]]
              simp only [hstep]
              rw [ih (acc ++ [op])]
              simp

/-- C9: if the work for one tile throws, that tile contributes no composite
placement and the loop continues with every remaining tile: the collected
operations equal those collected with the failing tile removed, and in
general every tile's contribution is exactly its own successful placement
(failing and unmatched tiles are skipped, all other tiles keep theirs in
order) — the loop is total, so the frame is still composited and written. -/
theorem tileFailureSkipped (step : Tile → Except String (Option CompositeOp))
    (ts1 ts2 : List Tile) (t : Tile) (msg : String)
    (hfail : step t = .error msg) :
    collectCompositeOperations step (ts1 ++ t :: ts2) =
      collectCompositeOperations step (ts1 ++ ts2) ∧
    (∀ ts : List Tile,
      collectCompositeOperations step ts = ts.filterMap (tileResultOp step)) := by
  have hgen : ∀ ts : List Tile,
      collectCompositeOperations step ts = ts.filterMap (tileResultOp step) := by
    intro ts
    rw [collectCompositeOperations, collect_foldl_acc step ts []]
    simp
  refine ⟨?_, hgen⟩
  rw [hgen, hgen]
  have hnone : tileResultOp step t = none := by rw [tileResultOp, hfail]
  simp [List.filterMap_append, List.filterMap_cons, hnone]

/-- A concrete per-tile step that fails exactly on tiles of the leftmost
column and matches everywhere else. -/
def stepStub : Tile → Except String (Option CompositeOp) :=
  fun t =>
    if t.x = 0 then Except.error "tile decode failed"
    else Except.ok (some ⟨[1], t.x, t.y⟩)

/-- Witness for C9: a failing middle tile drops out and the frame's other
tiles are unaffected. -/
theorem tileFailureSkipped_witness :
    collectCompositeOperations stepStub
        ([⟨16, 0, 2, 16⟩] ++ (⟨0, 0, 16, 16⟩ : Tile) :: [⟨16, 16, 2, 2⟩]) =
      collectCompositeOperations stepStub ([⟨16, 0, 2, 16⟩] ++ [⟨16, 16, 2, 2⟩]) :=
  (tileFailureSkipped stepStub [⟨16, 0, 2, 16⟩] [⟨16, 16, 2, 2⟩]
    ⟨0, 0, 16, 16⟩ "tile decode failed" rfl).1

/-- Where a requester of `getCachedResizedImage` stands: `ready` (about to
run the synchronous section: the `has` check and, on a miss, starting the
resize), `awaiting buf` (suspended at the `await` with the resize already
started — the invocation is counted here), or `done result`. -/
inductive TaskPhase where
  | ready : TaskPhase
  | awaiting : List ℕ → TaskPhase
  | done : List ℕ → TaskPhase
deriving DecidableEq

/-- Shared state of a worker's event loop with two concurrent
`getCachedResizedImage` requests for the same key in flight. -/
structure RaceState where
  cache : List (String × List ℕ)
  resizeCount : ℕ
  taskA : TaskPhase
  taskB : TaskPhase
deriving DecidableEq

/-- JavaScript `Map.set`: overwrite the entry in place if the key exists,
otherwise append. -/
def cacheSet (k : String) (v : List ℕ) :
    List (String × List ℕ) → List (String × List ℕ)
  | [] => [(k, v)]
  | e :: rest => if e.1 = k then (k, v) :: rest else e :: cacheSet k v rest

/-- One atomic section of a requester, per the single-threaded event loop:
from `ready`, the synchronous prefix of `getCachedResizedImage` runs — the
`has` check, and on a miss the resize is invoked (counted) before the task
suspends at the `await`; from `awaiting`, the post-`await` section runs —
`imageCache.set` followed by `imageCache.get(cacheKey)!`, which returns the
buffer just stored. -/
def phaseStep (resize : String → ℕ → ℕ → List ℕ) (framePath : String)
    (width height : ℕ) (cache : List (String × List ℕ)) (resizeCount : ℕ) :
    TaskPhase → TaskPhase × List (String × List ℕ) × ℕ
  | .ready =>
      match cacheLookup (cacheKey framePath width height) cache with
      | some buf => (.done buf, cache, resizeCount)
      | none => (.awaiting (resize framePath width height), cache, resizeCount + 1)
  | .awaiting buf =>
      (.done buf, cacheSet (cacheKey framePath width height) buf cache, resizeCount)
  | .done r => (.done r, cache, resizeCount)

/-- Run one scheduler step: `true` advances requester A, `false` requester B. -/
def raceStep (resize : String → ℕ → ℕ → List ℕ) (framePath : String)
    (width height : ℕ) (s : RaceState) (chooseA : Bool) : RaceState :=
  if chooseA then
    let r := phaseStep resize framePath width height s.cache s.resizeCount s.taskA
    { cache := r.2.1, resizeCount := r.2.2, taskA := r.1, taskB := s.taskB }
  else
    let r := phaseStep resize framePath width height s.cache s.resizeCount s.taskB
    { cache := r.2.1, resizeCount := r.2.2, taskA := s.taskA, taskB := r.1 }

/-- Run an interleaving (a schedule of A/B steps) of the two requests. -/
def runSchedule (resize : String → ℕ → ℕ → List ℕ) (framePath : String)
    (width height : ℕ) (sched : List Bool) (s : RaceState) : RaceState :=
  sched.foldl (raceStep resize framePath width height) s

/-- Both requesters about to run, empty cache, no resize performed yet. -/
def initialRaceState : RaceState := ⟨[], 0, .ready, .ready⟩

/-- C8 counterexample: under the interleaving A-check, B-check, A-resume,
B-resume — both requesters miss before either stores — the resize for the
single shared key runs twice, not at most once; both requesters complete.
The claim's "invoked at most once even when two requesters miss on the same
key at the same time" is therefore false of the code, which has no request
coalescing: the `has` check and the `set` are separated by an `await`. -/
theorem cacheRace_double_resize :
    (runSchedule resizeStub "ref.png" 2 2 [true, false, true, false]
      initialRaceState).resizeCount = 2 ∧
    (runSchedule resizeStub "ref.png" 2 2 [true, false, true, false]
      initialRaceState).taskA = .done (List.replicate 4 7) ∧
    (runSchedule resizeStub "ref.png" 2 2 [true, false, true, false]
      initialRaceState).taskB = .done (List.replicate 4 7) ∧
    ¬ ((runSchedule resizeStub "ref.png" 2 2 [true, false, true, false]
      initialRaceState).resizeCount ≤ 1) := by
  decide

/-- The per-task part of the race invariant: a suspended or completed
requester only ever carries the full resize result for the key. -/
def PhaseInv (rbuf : List ℕ) : TaskPhase → Prop
  | .ready => True
  | .awaiting b => b = rbuf
  | .done r => r = rbuf

/-- How many resize invocations a task in this phase can have caused. -/
def phaseCost : TaskPhase → ℕ
  | .ready => 0
  | .awaiting _ => 1
  | .done _ => 1

/-- The race invariant: the cache never holds anything but the full resize
result under the key, both tasks satisfy `PhaseInv`, and the number of
resize invocations is bounded by one per task that has left `ready`. -/
def RaceInv (resize : String → ℕ → ℕ → List ℕ) (framePath : String)
    (width height : ℕ) (s : RaceState) : Prop :=
  (∀ b, cacheLookup (cacheKey framePath width height) s.cache = some b →
    b = resize framePath width height) ∧
  PhaseInv (resize framePath width height) s.taskA ∧
  PhaseInv (resize framePath width height) s.taskB ∧
  s.resizeCount ≤ phaseCost s.taskA + phaseCost s.taskB

theorem cacheLookup_cacheSet_self (k : String) (v : List ℕ) :
    ∀ c, cacheLookup k (cacheSet k v c) = some v := by
  intro c
  induction c with
  | nil => simp [cacheSet, cacheLookup]
  | cons e rest ih =>
      by_cases he : e.1 = k
      · rw [cacheSet, if_pos he, cacheLookup, if_pos rfl]
      · rw [cacheSet, if_neg he, cacheLookup, if_neg he]
        exact ih

theorem phaseCost_le_one (ph : TaskPhase) : phaseCost ph ≤ 1 := by
  cases ph <;> simp [phaseCost]

theorem phaseStep_inv (resize : String → ℕ → ℕ → List ℕ) (framePath : String)
    (width height : ℕ) (cache : List (String × List ℕ)) (count : ℕ) (ph : TaskPhase)
    (hcache : ∀ b, cacheLookup (cacheKey framePath width height) cache = some b →
      b = resize framePath width height)
    (hph : PhaseInv (resize framePath width height) ph) :
    PhaseInv (resize framePath width height)
        (phaseStep resize framePath width height cache count ph).1 ∧
    (∀ b, cacheLookup (cacheKey framePath width height)
        (phaseStep resize framePath width height cache count ph).2.1 = some b →
      b = resize framePath width height) ∧
    (phaseStep resize framePath width height cache count ph).2.2 + phaseCost ph ≤
      count + phaseCost (phaseStep resize framePath width height cache count ph).1 := by
  cases ph with
  | ready =>
      cases hc : cacheLookup (cacheKey framePath width height) cache with
      | some buf =>
          simp only [phaseStep, hc]
          refine ⟨hcache buf hc, ?_, by simp [phaseCost]⟩
          intro b hb
          rw [← Option.some.inj hb]
          exact hcache buf hc
      | none =>
          simp only [phaseStep, hc]
          refine ⟨rfl, ?_, by simp [phaseCost]⟩
          intro b hb
          exact absurd hb (by simp)
  | awaiting buf =>
      simp only [phaseStep]
      refine ⟨hph, ?_, by simp [phaseCost]⟩
      intro b hb
      rw [cacheLookup_cacheSet_self] at hb
      rw [← Option.some.inj hb]
      exact hph
  | done r =>
      simp only [phaseStep]
      exact ⟨hph, hcache, by simp [phaseCost]⟩

theorem raceStep_inv (resize : String → ℕ → ℕ → List ℕ) (framePath : String)
    (width height : ℕ) (s : RaceState) (c : Bool)
    (hs : RaceInv resize framePath width height s) :
    RaceInv resize framePath width height
      (raceStep resize framePath width height s c) := by
  obtain ⟨hcache, hA, hB, hcount⟩ := hs
  cases c with
  | true =>
      obtain ⟨h1, h2, h3⟩ :=
        phaseStep_inv resize framePath width height s.cache s.resizeCount s.taskA hcache hA
      refine ⟨h2, h1, hB, ?_⟩
      show (phaseStep resize framePath width height s.cache s.resizeCount s.taskA).2.2 ≤
        phaseCost (phaseStep resize framePath width height s.cache s.resizeCount s.taskA).1 +
          phaseCost s.taskB
      omega
  | false =>
      obtain ⟨h1, h2, h3⟩ :=
        phaseStep_inv resize framePath width height s.cache s.resizeCount s.taskB hcache hB
      refine ⟨h2, hA, h1, ?_⟩
      show (phaseStep resize framePath width height s.cache s.resizeCount s.taskB).2.2 ≤
        phaseCost s.taskA +
          phaseCost (phaseStep resize framePath width height s.cache s.resizeCount s.taskB).1
      omega

theorem runSchedule_inv (resize : String → ℕ → ℕ → List ℕ) (framePath : String)
    (width height : ℕ) :
    ∀ (sched : List Bool) (s : RaceState), RaceInv resize framePath width height s →
      RaceInv resize framePath width height
        (runSchedule resize framePath width height sched s) := by
  intro sched
  induction sched with
  | nil => intro s hs; exact hs
  | cons c rest ih =>
      intro s hs
      rw [runSchedule, List.foldl_cons]
      exact ih _ (raceStep_inv resize framePath width height s c hs)

/-- C8 amended: two concurrent requesters that miss on the same key may
EACH invoke the resize — at most one invocation per requester, so at most
two in total for two requesters, rather than at most once overall; under
every interleaving each completed requester still returns the full resize
result for the key, and the cache only ever holds the fully-computed
buffer, so no reader observes a partially populated entry. -/
theorem cacheRace_bounded (resize : String → ℕ → ℕ → List ℕ) (framePath : String)
    (width height : ℕ) (sched : List Bool) :
    (runSchedule resize framePath width height sched initialRaceState).resizeCount ≤ 2 ∧
    (∀ r, (runSchedule resize framePath width height sched initialRaceState).taskA =
        .done r → r = resize framePath width height) ∧
    (∀ r, (runSchedule resize framePath width height sched initialRaceState).taskB =
        .done r → r = resize framePath width height) ∧
    (∀ b, cacheLookup (cacheKey framePath width height)
        (runSchedule resize framePath width height sched initialRaceState).cache =
        some b → b = resize framePath width height) := by
  have hinit : RaceInv resize framePath width height initialRaceState := by
    refine ⟨?_, trivial, trivial, by simp [initialRaceState, phaseCost]⟩
    intro b hb
    simp [initialRaceState, cacheLookup] at hb
  obtain ⟨hcache, hA, hB, hcount⟩ :=
    runSchedule_inv resize framePath width height sched initialRaceState hinit
  refine ⟨?_, ?_, ?_, hcache⟩
  · have h1 := phaseCost_le_one
      (runSchedule resize framePath width height sched initialRaceState).taskA
    have h2 := phaseCost_le_one
      (runSchedule resize framePath width height sched initialRaceState).taskB
    omega
  · intro r hr
    rw [hr] at hA
    exact hA
  · intro r hr
    rw [hr] at hB
    exact hB

/-- Witness for C8's amended statement on the racy interleaving. -/
theorem cacheRace_bounded_witness :
    (runSchedule resizeStub "ref.png" 2 2 [true, false, true, false]
      initialRaceState).resizeCount ≤ 2 :=
  (cacheRace_bounded resizeStub "ref.png" 2 2 [true, false, true, false]).1

end VideoArt
